import Mathlib

/-!
Verification development for the audio ingestion and resilient transcription
pipeline of the soniclayer repository.

The definitions below are a shallow embedding of the two source modules the
claims are about:

* `app/services/transcryption.py` — rate limiter, chunk transcription,
  chunked driver, and segment merging;
* `app/services/media_processor.py` — audio chunking and the large-audio
  planner.

Conventions of the embedding:

* Python `float` values (timestamps, durations, sizes used in arithmetic)
  are modelled as `ℚ`;
* Python `str` is Lean `String` (a wrapper around `List Char`); the method
  `str.strip()` is modelled by `strip` below, which removes leading and
  trailing whitespace characters from the underlying character list;
* Python's `round(x, 2)` is modelled by `round2`, rounding half-to-even at
  two decimal places over `ℚ`;
* fallible code is modelled with `Except`: in particular Python's `/`,
  which raises `ZeroDivisionError` on a zero denominator, is embedded as an
  explicit test producing an error value;
* the external Azure Whisper call is a parameter: functions that consume
  its response take the list of recognizer segments (or a transcription
  function) as an argument.  `while` loops over rational time are embedded
  with an explicit fuel parameter.
-/

namespace SonicLayer

/-- Whisper-style timestamped text piece.  The same record shape is used by
the source for raw recognizer fragments and for final merged segments
(Python dicts with keys `start`, `end`, `text`); `end` is a Lean keyword, so
the field is called `end_`. -/
structure Segment where
  start : ℚ
  end_ : ℚ
  text : String
  deriving Repr, DecidableEq

/-- Model of `AudioChunk` from `media_processor.py`. -/
structure AudioChunk where
  file_path : String
  start_time : ℚ
  duration : ℚ
  chunk_index : ℕ
  deriving Repr, DecidableEq

/-! ## Python `str.strip()` -/

/-- Characters removed by Python's `str.strip()` (whitespace). -/
def stripChars (l : List Char) : List Char :=
  ((l.dropWhile Char.isWhitespace).reverse.dropWhile Char.isWhitespace).reverse

/-- Model of Python's `str.strip()`: drop leading and trailing whitespace. -/
def strip (s : String) : String :=
  String.mk (stripChars s.data)

/-! ## Python `round(x, 2)` -/

/-- Round a rational to the nearest integer, ties to even — the behaviour of
Python's builtin `round`. -/
def roundHalfEven (q : ℚ) : ℤ :=
  if q - ⌊q⌋ = 1 / 2 then (if Even ⌊q⌋ then ⌊q⌋ else ⌊q⌋ + 1) else round q

/-- Model of Python's `round(x, 2)`. -/
def round2 (q : ℚ) : ℚ :=
  (roundHalfEven (q * 100) : ℚ) / 100

/-- A rational that is a whole number of hundredths (so `round2` leaves it
unchanged). -/
def isCenti (q : ℚ) : Prop :=
  ∃ n : ℤ, q = (n : ℚ) / 100

/-! ## Rate limiter (`transcryption.py`, lines 16–38) -/

/-- Rate limiting: 3 requests per minute (`RATE_LIMIT_REQUESTS`). -/
def RATE_LIMIT_REQUESTS : ℕ := 3

/-- Length in seconds of the rate-limit window (`RATE_LIMIT_PERIOD`). -/
def RATE_LIMIT_PERIOD : ℚ := 60

/-- Model of `_wait_for_rate_limit`.  The state is the global
`last_request_times` list; `now` is the value of `time.time()` on entry.
Returns the time at which the request is actually issued (i.e. when the
function returns, after any `time.sleep`) together with the new state.
After a blocking sleep the source *clears* the whole timestamp list and
records only the post-sleep time. -/
def wait_for_rate_limit (state : List ℚ) (now : ℚ) : ℚ × List ℚ :=
  let pruned := state.filter (fun t => now - t < RATE_LIMIT_PERIOD)
  match pruned.head? with
  | some t0 =>
    if RATE_LIMIT_REQUESTS ≤ pruned.length then
      let sleep_time := RATE_LIMIT_PERIOD - (now - t0) + 1
      if 0 < sleep_time then
        (now + sleep_time, [now + sleep_time])
      else
        (now, pruned ++ [now])
    else
      (now, pruned ++ [now])
  | none => (now, pruned ++ [now])

/-- Run the rate limiter over a sequence of request arrival times, starting
from the empty timestamp list, and return the list of issue times. -/
def rl_run (arrivals : List ℚ) : List ℚ :=
  (arrivals.foldl
    (fun (acc : List ℚ × List ℚ) now =>
      let r := wait_for_rate_limit acc.2 now
      (acc.1 ++ [r.1], r.2))
    ([], [])).1

/-! ## `merge_segments` (`transcryption.py`, lines 217–258) -/

/-- Loop body of `merge_segments`: `current` is the open segment, the list
argument is the remaining input.  When the open segment's span has reached
`target_duration` it is finalized and the next fragment seeds a new one;
otherwise the next fragment is merged (space-joined text, extended end).
At the end the open segment is flushed if its text is non-empty. -/
def mergeGo (target_duration : ℚ) (current : Segment) : List Segment → List Segment
  | [] => if current.text ≠ "" then [current] else []
  | s :: rest =>
    if target_duration ≤ current.end_ - current.start then
      current :: mergeGo target_duration s rest
    else
      mergeGo target_duration ⟨current.start, s.end_, current.text ++ " " ++ s.text⟩ rest

/-- Model of `merge_segments`. -/
def merge_segments (segments : List Segment) (target_duration : ℚ) : List Segment :=
  match segments with
  | [] => []
  | s0 :: rest => mergeGo target_duration ⟨s0.start, s0.end_, s0.text⟩ rest

/-! ## `transcribe_chunk` (`transcryption.py`, lines 139–184) -/

/-- Model of the segment post-processing of `transcribe_chunk`: the external
call's recognizer segments are the `whisper` argument; each one with
non-empty stripped text yields an output segment whose timestamps are offset
by the chunk's start time and rounded to two decimals. -/
def transcribe_chunk (chunk_start_time : ℚ) (whisper : List Segment) : List Segment :=
  whisper.filterMap (fun w =>
    let t := strip w.text
    if t = "" then none
    else some ⟨round2 (chunk_start_time + w.start), round2 (chunk_start_time + w.end_), t⟩)

/-! ## `transcribe_chunked_audio` (`transcryption.py`, lines 186–215) -/

/-- Error raised by `transcribe_chunked_audio` when a chunk fails:
`Exception(f"Chunk {chunk.chunk_index} transcription failed: ...")`.  The
embedding keeps the failing chunk's index as a field next to the message. -/
structure ChunkTranscriptionError where
  chunkIndex : ℕ
  message : String
  deriving Repr, DecidableEq

/-- Loop of `transcribe_chunked_audio`: transcribe each chunk in order,
accumulating segments; on the first failure stop and raise an error naming
the failing chunk's index.  The first component of the result is the list of
chunks actually submitted to the external service (a call trace). -/
def driveChunks (transcribe : AudioChunk → Except String (List Segment)) :
    List AudioChunk → List AudioChunk × Except ChunkTranscriptionError (List Segment)
  | [] => ([], Except.ok [])
  | c :: rest =>
    match transcribe c with
    | Except.ok segs =>
      match driveChunks transcribe rest with
      | (submitted, Except.ok more) => (c :: submitted, Except.ok (segs ++ more))
      | (submitted, Except.error e) => (c :: submitted, Except.error e)
    | Except.error msg =>
      ([c], Except.error
        ⟨c.chunk_index, "Chunk " ++ toString c.chunk_index ++ " transcription failed: " ++ msg⟩)

/-- Model of `transcribe_chunked_audio`.  `transcribe` stands for
`transcribe_chunk` applied to a chunk's file and start time (it performs the
external call, so it may fail).  On overall success the accumulated segments
are merged with target duration 15. -/
def transcribe_chunked_audio (transcribe : AudioChunk → Except String (List Segment))
    (chunks : List AudioChunk) :
    List AudioChunk × Except ChunkTranscriptionError (List Segment) :=
  match driveChunks transcribe chunks with
  | (submitted, Except.ok segs) => (submitted, Except.ok (merge_segments segs 15))
  | (submitted, Except.error e) => (submitted, Except.error e)

/-! ## `transcribe_audio_with_timestamps` (`transcryption.py`, lines 65–137) -/

/-- Loop of `transcribe_audio_with_timestamps` over the recognizer segments.
State: `cs` is `current_segment["start"]`, `ct` is `current_segment["text"]`.
`lastEnd?` is the end of the last recognizer segment (used when flushing the
final open segment; `none` when there were no recognizer segments, in which
case the source falls back to `current_segment["start"] + segment_duration`). -/
def tawGo (segment_duration : ℚ) (lastEnd? : Option ℚ) :
    List Segment → ℚ → String → List Segment
  | [], cs, ct =>
    if ct ≠ "" then
      [⟨round2 cs, round2 (match lastEnd? with | some e => e | none => cs + segment_duration),
        strip ct⟩]
    else []
  | w :: rest, cs, ct =>
    let t := strip w.text
    if ct ≠ "" ∧ segment_duration < w.end_ - cs then
      ⟨round2 cs, round2 w.start, strip ct⟩ :: tawGo segment_duration lastEnd? rest w.start t
    else
      if ct ≠ "" then
        tawGo segment_duration lastEnd? rest cs (ct ++ " " ++ t)
      else
        tawGo segment_duration lastEnd? rest w.start t

/-- Model of the segment bucketing done by `transcribe_audio_with_timestamps`
(the single-chunk path): the recognizer's segments are the `whisper`
argument; the result is the returned segment list. -/
def transcribe_audio_with_timestamps (segment_duration : ℚ) (whisper : List Segment) :
    List Segment :=
  tawGo segment_duration (whisper.getLast?.map Segment.end_) whisper 0 ""

/-! ## `media_processor.py` -/

/-- Azure Whisper file size limit, bytes (`MAX_FILE_SIZE_BYTES = 25 MiB`). -/
def MAX_FILE_SIZE_BYTES : ℕ := 25 * 1024 * 1024

/-- Target chunk size, bytes (`TARGET_CHUNK_SIZE_BYTES = 20 MiB`). -/
def TARGET_CHUNK_SIZE_BYTES : ℕ := 20 * 1024 * 1024

/-- Output file name `f"chunk_{chunk_index:04d}.flac"` used by `chunk_audio`. -/
def chunkFileName (chunk_index : ℕ) : String :=
  let s := toString chunk_index
  "chunk_" ++ String.mk (List.replicate (4 - s.length) '0') ++ s ++ ".flac"

/-- Loop of `chunk_audio`: `while current_time < total_duration`, embedded
with a fuel parameter (the source loop terminates because each iteration
advances `current_time` by `min chunk_duration remaining > 0`). -/
def chunkGo (total_duration chunk_duration : ℚ) :
    ℕ → ℚ → ℕ → List AudioChunk
  | 0, _, _ => []
  | fuel + 1, current_time, chunk_index =>
    if current_time < total_duration then
      let remaining := total_duration - current_time
      let duration := min chunk_duration remaining
      ⟨chunkFileName chunk_index, current_time, duration, chunk_index⟩ ::
        chunkGo total_duration chunk_duration fuel (current_time + duration) (chunk_index + 1)
    else []

/-- Model of `chunk_audio` (`media_processor.py`, lines 87–138): split the
probed `total_duration` into time-based chunks of at most `chunk_duration`
seconds (the ffmpeg cutting itself is assumed to succeed). -/
def chunk_audio (total_duration chunk_duration : ℚ) (fuel : ℕ) : List AudioChunk :=
  chunkGo total_duration chunk_duration fuel 0 0

/-- Errors the planner model can surface.  `zeroDivisionError` embeds the
`ZeroDivisionError` the Python runtime raises for `x / 0`.
`invalidAudioError` is the error named by the specification for
zero-duration input; no code in the repository constructs it — it is
declared only so that statements about it can be written down. -/
inductive PlannerError where
  | zeroDivisionError
  | invalidAudioError
  deriving Repr, DecidableEq

/-- Model of `process_large_audio` (`media_processor.py`, lines 143–212).
Inputs replace the probing and compression side effects: `file_size` is
`len(file_bytes)`, `duration` is the probed `info['duration']`, and
`compressed_size` is the byte size actually observed after `compress_audio`
(the compressed size is only ever looked at after compression has run, as
in the source).  `fuel` bounds the chunking loop. -/
def process_large_audio (file_size : ℕ) (duration : ℚ) (compressed_size : ℕ)
    (fuel : ℕ) : Except PlannerError (List AudioChunk) :=
  if file_size ≤ MAX_FILE_SIZE_BYTES then
    Except.ok [⟨"original.wav", 0, duration, 0⟩]
  else if compressed_size ≤ MAX_FILE_SIZE_BYTES then
    Except.ok [⟨"compressed.flac", 0, duration, 0⟩]
  else if duration = 0 then
    Except.error PlannerError.zeroDivisionError
  else
    let estimated_bitrate := (compressed_size : ℚ) / duration
    let chunk_duration := (TARGET_CHUNK_SIZE_BYTES : ℚ) / estimated_bitrate * (9 / 10)
    let chunk_duration := max 60 (min chunk_duration 300)
    Except.ok (chunk_audio duration chunk_duration fuel)

/-! ## Final-output invariant and text joining -/

/-- The invariant the specification asserts of every returned segment list:
positive length, text with no leading or trailing whitespace, strictly
ascending starts and no overlap between adjacent segments. -/
def segInvariant (segs : List Segment) : Prop :=
  (∀ s ∈ segs, s.start < s.end_ ∧ strip s.text = s.text) ∧
    List.Chain' (fun a b => a.start < b.start ∧ a.end_ ≤ b.start) segs

/-- Space-joined concatenation of a list of strings. -/
def sjoin : List String → String
  | [] => ""
  | [s] => s
  | s :: rest => s ++ " " ++ sjoin rest

/-- A character list with no leading and no trailing whitespace (the
fixpoints of `stripChars`). -/
def noEdgeWS (l : List Char) : Prop :=
  (∀ c, l.head? = some c → c.isWhitespace = false) ∧
    (∀ c, l.getLast? = some c → c.isWhitespace = false)

end SonicLayer

namespace SonicLayer

/-! # Helper lemmas

String facts first: `strip` is idempotent, detects its fixpoints on the
edges of the character list, and is closed under space-joining of non-empty
fixpoints. -/

theorem data_append (s t : String) : (s ++ t).data = s.data ++ t.data := by
  cases s
  cases t
  rfl

theorem data_eq_nil_iff (s : String) : s.data = [] ↔ s = "" := by
  cases s
  simp [String.ext_iff]

theorem head?_dropWhile_not (p : Char → Bool) (l : List Char) (c : Char)
    (h : (l.dropWhile p).head? = some c) : p c = false := by
  induction l with
  | nil => simp at h
  | cons a t ih =>
    rw [List.dropWhile_cons] at h
    split at h
    · exact ih h
    · simp_all

theorem dropWhile_eq_self_of_head (p : Char → Bool) (l : List Char)
    (h : ∀ c, l.head? = some c → p c = false) : l.dropWhile p = l := by
  cases l with
  | nil => rfl
  | cons a t =>
    rw [List.dropWhile_cons, if_neg]
    simp [h a rfl]

theorem getLast?_dropWhile (p : Char → Bool) (l : List Char)
    (h : l.dropWhile p ≠ []) : (l.dropWhile p).getLast? = l.getLast? := by
  conv_rhs => rw [← List.takeWhile_append_dropWhile p l]
  rw [List.getLast?_append]
  cases hd : (l.dropWhile p).getLast? with
  | none => simp [List.getLast?_eq_getLast _ h] at hd
  | some c => simp [Option.or]

theorem noEdgeWS_stripChars (l : List Char) : noEdgeWS (stripChars l) := by
  unfold stripChars noEdgeWS
  constructor
  · intro c hc
    rw [List.head?_reverse] at hc
    by_cases hnil : (l.dropWhile Char.isWhitespace).reverse.dropWhile Char.isWhitespace = []
    · simp [hnil] at hc
    · rw [getLast?_dropWhile _ _ hnil, List.getLast?_reverse] at hc
      exact head?_dropWhile_not _ _ _ hc
  · intro c hc
    rw [List.getLast?_reverse] at hc
    exact head?_dropWhile_not _ _ _ hc

theorem stripChars_of_noEdgeWS (l : List Char) (h : noEdgeWS l) : stripChars l = l := by
  unfold stripChars
  rw [dropWhile_eq_self_of_head _ _ h.1]
  rw [dropWhile_eq_self_of_head _ l.reverse (by simpa [List.head?_reverse] using h.2)]
  exact List.reverse_reverse l

theorem noEdgeWS_of_stripChars (l : List Char) (h : stripChars l = l) : noEdgeWS l := by
  rw [← h]
  exact noEdgeWS_stripChars l

theorem strip_data (s : String) : (strip s).data = stripChars s.data := rfl

theorem strip_eq_self_iff (s : String) : strip s = s ↔ noEdgeWS s.data := by
  constructor
  · intro h
    exact noEdgeWS_of_stripChars _ (by simpa [String.ext_iff, strip_data] using h)
  · intro h
    simp [String.ext_iff, strip_data, stripChars_of_noEdgeWS _ h]

theorem strip_idem (s : String) : strip (strip s) = strip s := by
  rw [strip_eq_self_iff, strip_data]
  exact noEdgeWS_stripChars _

theorem sjoin_ne_empty (s t : String) : s ++ " " ++ t ≠ "" := by
  intro h
  have hd := congrArg String.data h
  rw [data_append, data_append] at hd
  have hsp : (" " : String).data = [' '] := rfl
  simp [hsp] at hd

theorem strip_join (s t : String) (hs : strip s = s) (ht : strip t = t)
    (hs0 : s ≠ "") (ht0 : t ≠ "") : strip (s ++ " " ++ t) = s ++ " " ++ t := by
  rw [strip_eq_self_iff] at hs ht ⊢
  rw [data_append, data_append]
  have hsp : (" " : String).data = [' '] := rfl
  have hsd : s.data ≠ [] := fun h => hs0 ((data_eq_nil_iff s).1 h)
  have htd : t.data ≠ [] := fun h => ht0 ((data_eq_nil_iff t).1 h)
  constructor
  · intro c hc
    rw [List.head?_append_of_ne_nil _ (by simp [hsd]), List.head?_append_of_ne_nil _ hsd] at hc
    exact hs.1 c hc
  · intro c hc
    rw [List.getLast?_append] at hc
    cases hg : t.data.getLast? with
    | none => exact absurd (List.getLast?_eq_none_iff.1 hg) htd
    | some d =>
      rw [hg] at hc
      simp only [Option.or_some, Option.some.injEq] at hc
      subst hc
      exact ht.2 _ hg

/-! Rounding facts: `round2` fixes every whole number of hundredths, and
hundredths are closed under addition. -/

theorem round2_eq_self {q : ℚ} (h : isCenti q) : round2 q = q := by
  obtain ⟨n, rfl⟩ := h
  have h100 : ((n : ℚ) / 100) * 100 = (n : ℚ) := by
    field_simp
  unfold round2 roundHalfEven
  rw [h100, Int.floor_intCast, sub_self]
  rw [if_neg (by norm_num), round_intCast]

theorem isCenti_add {a b : ℚ} (ha : isCenti a) (hb : isCenti b) : isCenti (a + b) := by
  obtain ⟨m, rfl⟩ := ha
  obtain ⟨n, rfl⟩ := hb
  exact ⟨m + n, by push_cast; ring⟩

theorem round2_lt_round2 {a b : ℚ} (ha : isCenti a) (hb : isCenti b) (h : a < b) :
    round2 a < round2 b := by
  rw [round2_eq_self ha, round2_eq_self hb]
  exact h

/-! Structural lemmas about the `merge_segments` loop. -/

theorem mergeGo_ne_nil (T : ℚ) (rest : List Segment) :
    ∀ current : Segment, current.text ≠ "" → mergeGo T current rest ≠ [] := by
  induction rest with
  | nil =>
    intro current h
    simp [mergeGo, h]
  | cons s rest ih =>
    intro current h
    unfold mergeGo
    split
    · simp
    · exact ih _ (sjoin_ne_empty current.text s.text)

theorem mergeGo_head? (T : ℚ) (rest : List Segment) :
    ∀ current : Segment, current.text ≠ "" →
      ∃ e t, (mergeGo T current rest).head? = some ⟨current.start, e, t⟩ := by
  induction rest with
  | nil =>
    intro current h
    exact ⟨current.end_, current.text, by simp [mergeGo, h]⟩
  | cons s rest ih =>
    intro current h
    unfold mergeGo
    split
    · exact ⟨current.end_, current.text, by simp⟩
    · exact ih _ (sjoin_ne_empty current.text s.text)

theorem mergeGo_getLast? (T : ℚ) (rest : List Segment) :
    ∀ current : Segment, current.text ≠ "" → (∀ x ∈ rest, x.text ≠ "") →
      (mergeGo T current rest).getLast?.map Segment.end_ =
        ((current :: rest).getLast?).map Segment.end_ := by
  induction rest with
  | nil =>
    intro current h _
    simp [mergeGo, h]
  | cons s rest ih =>
    intro current h hrest
    unfold mergeGo
    split
    · have hs : s.text ≠ "" := hrest s (by simp)
      have hne := mergeGo_ne_nil T rest s hs
      obtain ⟨a, l, hl⟩ := List.exists_cons_of_ne_nil hne
      have hrec := ih s hs (fun x hx => hrest x (by simp [hx]))
      rw [hl] at hrec ⊢
      rw [List.getLast?_cons_cons, hrec, List.getLast?_cons_cons]
    · have hrec := ih ⟨current.start, s.end_, current.text ++ " " ++ s.text⟩
        (sjoin_ne_empty current.text s.text) (fun x hx => hrest x (by simp [hx]))
      rw [hrec]
      cases rest with
      | nil => simp
      | cons r rest' =>
        rw [List.getLast?_cons_cons, List.getLast?_cons_cons, List.getLast?_cons_cons]

theorem sjoin_cons_of_ne_nil (x : String) (L : List String) (h : L ≠ []) :
    sjoin (x :: L) = x ++ " " ++ sjoin L := by
  cases L with
  | nil => exact absurd rfl h
  | cons y M => rfl

theorem sjoin_join_cons (a b : String) (L : List String) :
    sjoin ((a ++ " " ++ b) :: L) = a ++ " " ++ sjoin (b :: L) := by
  cases L with
  | nil => rfl
  | cons y M =>
    show a ++ " " ++ b ++ " " ++ sjoin (y :: M) = a ++ " " ++ (b ++ " " ++ sjoin (y :: M))
    simp [String.append_assoc]

theorem mergeGo_sjoin (T : ℚ) (rest : List Segment) :
    ∀ current : Segment, current.text ≠ "" → (∀ x ∈ rest, x.text ≠ "") →
      sjoin ((mergeGo T current rest).map Segment.text) =
        sjoin (current.text :: rest.map Segment.text) := by
  induction rest with
  | nil =>
    intro current h _
    simp [mergeGo, h, sjoin]
  | cons s rest ih =>
    intro current h hrest
    have hs : s.text ≠ "" := hrest s (by simp)
    have htail : ∀ x ∈ rest, x.text ≠ "" := fun x hx => hrest x (by simp [hx])
    unfold mergeGo
    split
    · have hne := mergeGo_ne_nil T rest s hs
      rw [List.map_cons, sjoin_cons_of_ne_nil _ _ (by simpa using hne),
        ih s hs htail, List.map_cons]
      rfl
    · rw [ih _ (sjoin_ne_empty current.text s.text) htail, sjoin_join_cons, List.map_cons]
      rfl

theorem mergeGo_invariant (T : ℚ) (rest : List Segment) :
    ∀ current : Segment,
      current.start < current.end_ → strip current.text = current.text →
      current.text ≠ "" →
      (∀ s ∈ rest, s.start < s.end_ ∧ strip s.text = s.text ∧ s.text ≠ "") →
      List.Chain' (fun a b => a.end_ ≤ b.start) (current :: rest) →
      segInvariant (mergeGo T current rest) := by
  induction rest with
  | nil =>
    intro current h1 h2 h3 _ _
    constructor
    · intro s hs
      simp [mergeGo, h3] at hs
      subst hs
      exact ⟨h1, h2⟩
    · simp [mergeGo, h3]
  | cons s rest ih =>
    intro current h1 h2 h3 hrest hchain
    have hcs : current.end_ ≤ s.start := (List.chain'_cons.1 hchain).1
    have hschain : List.Chain' (fun a b => a.end_ ≤ b.start) (s :: rest) :=
      (List.chain'_cons.1 hchain).2
    obtain ⟨hs1, hs2, hs3⟩ := hrest s (by simp)
    have htail : ∀ x ∈ rest, x.start < x.end_ ∧ strip x.text = x.text ∧ x.text ≠ "" :=
      fun x hx => hrest x (by simp [hx])
    unfold mergeGo
    split
    · have hrec := ih s hs1 hs2 hs3 htail hschain
      constructor
      · intro x hx
        rcases List.mem_cons.1 hx with hx | hx
        · subst hx
          exact ⟨h1, h2⟩
        · exact hrec.1 x hx
      · rw [List.chain'_cons']
        refine ⟨?_, hrec.2⟩
        intro y hy
        obtain ⟨e, t, hhd⟩ := mergeGo_head? T rest s hs3
        rw [hhd] at hy
        simp at hy
        subst hy
        exact ⟨lt_of_lt_of_le h1 hcs, hcs⟩
    · apply ih ⟨current.start, s.end_, current.text ++ " " ++ s.text⟩
      · exact lt_of_lt_of_le h1 (le_trans hcs (le_of_lt hs1))
      · exact strip_join _ _ h2 hs2 h3 hs3
      · exact sjoin_ne_empty _ _
      · exact htail
      · rw [List.chain'_cons']
        exact ⟨fun y hy => (List.chain'_cons'.1 hschain).1 y hy, (List.chain'_cons'.1 hschain).2⟩

/-! Invariant of the `transcribe_audio_with_timestamps` loop. -/

theorem tawGo_cons_finalize (T : ℚ) (le? : Option ℚ) (w : Segment) (rest : List Segment)
    (cs : ℚ) (ct : String) (hct : ct ≠ "") (h : T < w.end_ - cs) :
    tawGo T le? (w :: rest) cs ct =
      ⟨round2 cs, round2 w.start, strip ct⟩ :: tawGo T le? rest w.start (strip w.text) := by
  simp [tawGo, hct, h]

theorem tawGo_cons_merge (T : ℚ) (le? : Option ℚ) (w : Segment) (rest : List Segment)
    (cs : ℚ) (ct : String) (hct : ct ≠ "") (h : ¬ T < w.end_ - cs) :
    tawGo T le? (w :: rest) cs ct =
      tawGo T le? rest cs (ct ++ " " ++ strip w.text) := by
  simp [tawGo, hct, h]

theorem tawGo_cons_seed (T : ℚ) (le? : Option ℚ) (w : Segment) (rest : List Segment)
    (cs : ℚ) : tawGo T le? (w :: rest) cs "" = tawGo T le? rest w.start (strip w.text) := by
  simp [tawGo]

theorem tawGo_invariant (T : ℚ) (rest : List Segment) :
    ∀ (cs : ℚ) (ct : String) (lastEnd : ℚ),
      ct ≠ "" →
      isCenti cs →
      (∀ w ∈ rest, w.start < w.end_ ∧ isCenti w.start ∧ isCenti w.end_ ∧ strip w.text ≠ "") →
      List.Chain' (fun a b => a.end_ ≤ b.start) rest →
      (∀ r, rest.head? = some r → cs < r.start) →
      (rest = [] → cs < lastEnd) →
      (∀ r, rest.getLast? = some r → r.end_ = lastEnd) →
      isCenti lastEnd →
      segInvariant (tawGo T (some lastEnd) rest cs ct) ∧
        tawGo T (some lastEnd) rest cs ct ≠ [] ∧
        (∀ y, (tawGo T (some lastEnd) rest cs ct).head? = some y → y.start = round2 cs) := by
  induction rest with
  | nil =>
    intro cs ct lastEnd hct hcs _ _ _ hlast _ hcle
    refine ⟨⟨?_, ?_⟩, ?_, ?_⟩
    · intro s hs
      simp [tawGo, hct] at hs
      subst hs
      exact ⟨round2_lt_round2 hcs hcle (hlast rfl), strip_idem ct⟩
    · simp [tawGo, hct]
    · simp [tawGo, hct]
    · intro y hy
      simp [tawGo, hct] at hy
      rw [← hy]
  | cons w rest ih =>
    intro cs ct lastEnd hct hcs hw hchain hhead hnil hlast hcle
    obtain ⟨hw1, hw2, hw3, hw4⟩ := hw w (by simp)
    have hcsw : cs < w.start := hhead w rfl
    have htail : ∀ x ∈ rest, x.start < x.end_ ∧ isCenti x.start ∧ isCenti x.end_ ∧
        strip x.text ≠ "" := fun x hx => hw x (by simp [hx])
    have htchain : List.Chain' (fun a b => a.end_ ≤ b.start) rest :=
      (List.chain'_cons'.1 hchain).2
    have hthead : ∀ r, rest.head? = some r → w.end_ ≤ r.start :=
      fun r hr => (List.chain'_cons'.1 hchain).1 r hr
    have htlast : ∀ r, rest.getLast? = some r → r.end_ = lastEnd := by
      intro r hr
      apply hlast
      cases rest with
      | nil => simp at hr
      | cons a l => rw [List.getLast?_cons_cons]; exact hr
    have htnil : rest = [] → w.end_ = lastEnd := by
      intro h
      subst h
      exact hlast w rfl
    by_cases hTc : T < w.end_ - cs
    · rw [tawGo_cons_finalize T (some lastEnd) w rest cs ct hct hTc]
      have hrec := ih w.start (strip w.text) lastEnd hw4 hw2 htail htchain
        (fun r hr => lt_of_lt_of_le hw1 (hthead r hr))
        (fun h => lt_of_lt_of_eq hw1 (htnil h)) htlast hcle
      obtain ⟨hrinv, hrne, hrhd⟩ := hrec
      refine ⟨⟨?_, ?_⟩, ?_, ?_⟩
      · intro s hs
        rcases List.mem_cons.1 hs with hs | hs
        · subst hs
          exact ⟨round2_lt_round2 hcs hw2 hcsw, strip_idem ct⟩
        · exact hrinv.1 s hs
      · rw [List.chain'_cons']
        refine ⟨?_, hrinv.2⟩
        intro y hy
        have hys := hrhd y hy
        rw [hys]
        exact ⟨round2_lt_round2 hcs hw2 hcsw, le_refl _⟩
      · simp
      · intro y hy
        simp at hy
        rw [← hy]
    · rw [tawGo_cons_merge T (some lastEnd) w rest cs ct hct hTc]
      apply ih cs (ct ++ " " ++ strip w.text) lastEnd (sjoin_ne_empty _ _) hcs htail htchain
      · intro r hr
        exact lt_of_lt_of_le (lt_trans hcsw hw1) (hthead r hr)
      · intro h
        exact lt_of_lt_of_eq (lt_trans hcsw hw1) (htnil h)
      · exact htlast
      · exact hcle

/-! Invariant of the `chunk_audio` loop. -/

theorem chunkGo_stop (total chunkDur : ℚ) (fuel : ℕ) (cur : ℚ) (idx : ℕ)
    (h : ¬ cur < total) : chunkGo total chunkDur fuel cur idx = [] := by
  cases fuel with
  | zero => rfl
  | succ n => simp [chunkGo, h]

theorem chunkGo_step (total chunkDur : ℚ) (fuel : ℕ) (cur : ℚ) (idx : ℕ) (h : cur < total) :
    chunkGo total chunkDur (fuel + 1) cur idx =
      ⟨chunkFileName idx, cur, min chunkDur (total - cur), idx⟩ ::
        chunkGo total chunkDur fuel (cur + min chunkDur (total - cur)) (idx + 1) := by
  simp [chunkGo, h]

theorem chunkGo_spec (total chunkDur : ℚ) :
    ∀ (fuel : ℕ) (cur : ℚ) (idx : ℕ),
      cur < total → total - cur ≤ fuel * chunkDur →
      chunkGo total chunkDur fuel cur idx ≠ [] ∧
      (chunkGo total chunkDur fuel cur idx).map AudioChunk.chunk_index =
        List.range' idx (chunkGo total chunkDur fuel cur idx).length ∧
      (∀ y, (chunkGo total chunkDur fuel cur idx).head? = some y → y.start_time = cur) ∧
      List.Chain' (fun a b => b.start_time = a.start_time + a.duration)
        (chunkGo total chunkDur fuel cur idx) ∧
      ((chunkGo total chunkDur fuel cur idx).map AudioChunk.duration).sum = total - cur ∧
      (∀ c ∈ (chunkGo total chunkDur fuel cur idx).dropLast, c.duration = chunkDur) := by
  intro fuel
  induction fuel with
  | zero =>
    intro cur idx hlt hle
    simp at hle
    linarith
  | succ fuel ih =>
    intro cur idx hlt hle
    rw [chunkGo_step total chunkDur fuel cur idx hlt]
    by_cases hrem : total - cur ≤ chunkDur
    · have hmin : min chunkDur (total - cur) = total - cur := min_eq_right hrem
      rw [hmin]
      have hstop : chunkGo total chunkDur fuel (cur + (total - cur)) (idx + 1) = [] :=
        chunkGo_stop _ _ _ _ _ (by simp)
      rw [hstop]
      refine ⟨by simp, by simp [List.range'], ?_, List.chain'_singleton _, by simp, by simp⟩
      · intro y hy
        simp at hy
        rw [← hy]
    · push_neg at hrem
      have hmin : min chunkDur (total - cur) = chunkDur := min_eq_left (le_of_lt hrem)
      rw [hmin]
      have hlt' : cur + chunkDur < total := by linarith
      have hle' : total - (cur + chunkDur) ≤ fuel * chunkDur := by
        have : (fuel + 1 : ℚ) * chunkDur = fuel * chunkDur + chunkDur := by ring
        push_cast at hle
        rw [this] at hle
        linarith
      obtain ⟨hne, hidx, hhd, hchain, hsum, hdrop⟩ := ih (cur + chunkDur) (idx + 1) hlt' hle'
      refine ⟨by simp, ?_, ?_, ?_, ?_, ?_⟩
      · simp only [List.map_cons, List.length_cons, List.range'_succ, hidx]
      · intro y hy
        simp at hy
        rw [← hy]
      · rw [List.chain'_cons']
        refine ⟨?_, hchain⟩
        intro y hy
        rw [hhd y hy]
      · simp only [List.map_cons, List.sum_cons, hsum]
        ring
      · intro c hc
        rw [List.dropLast_cons_of_ne_nil hne] at hc
        rcases List.mem_cons.1 hc with hc | hc
        · rw [hc]
        · exact hdrop c hc

/-! File-name facts used to tell a whole-file single chunk from a cut chunk. -/

theorem chunkFileName_ne (n : ℕ) :
    chunkFileName n ≠ "original.wav" ∧ chunkFileName n ≠ "compressed.flac" := by
  have hdata : (chunkFileName n).data =
      'c' :: 'h' :: 'u' :: 'n' :: 'k' :: '_' ::
        ((List.replicate (4 - (toString n).length) '0') ++ (toString n).data ++ ".flac".data) := by
    unfold chunkFileName
    rw [data_append, data_append, data_append]
    simp [String.mk]
  constructor
  · intro h
    have h2 := congrArg String.data h
    rw [hdata] at h2
    have : ("original.wav" : String).data = 'o' :: "riginal.wav".data := rfl
    rw [this] at h2
    injection h2 with h3 _
    exact absurd h3 (by decide)
  · intro h
    have h2 := congrArg String.data h
    rw [hdata] at h2
    have : ("compressed.flac" : String).data = 'c' :: 'o' :: "mpressed.flac".data := rfl
    rw [this] at h2
    injection h2 with h3 h4
    injection h4 with h5 _
    exact absurd h5 (by decide)

theorem chunkGo_paths (total chunkDur : ℚ) :
    ∀ (fuel : ℕ) (cur : ℚ) (idx : ℕ) (c : AudioChunk),
      c ∈ chunkGo total chunkDur fuel cur idx → ∃ m, c.file_path = chunkFileName m := by
  intro fuel
  induction fuel with
  | zero =>
    intro cur idx c hc
    simp [chunkGo] at hc
  | succ fuel ih =>
    intro cur idx c hc
    by_cases h : cur < total
    · rw [chunkGo_step total chunkDur fuel cur idx h] at hc
      rcases List.mem_cons.1 hc with hc | hc
      · exact ⟨idx, by rw [hc]⟩
      · exact ih _ _ c hc
    · rw [chunkGo_stop total chunkDur _ _ _ h] at hc
      simp at hc

/-! Fail-fast behaviour of the chunked transcription driver. -/

theorem driveChunks_fail (transcribe : AudioChunk → Except String (List Segment)) :
    ∀ (chunks : List AudioChunk) (i : ℕ) (hi : i < chunks.length),
      (∀ j (hj : j < i), (transcribe (chunks.get ⟨j, lt_trans hj hi⟩)).isOk) →
      ∀ msg, transcribe (chunks.get ⟨i, hi⟩) = Except.error msg →
      (driveChunks transcribe chunks).1 = chunks.take (i + 1) ∧
        (driveChunks transcribe chunks).2 = Except.error
          ⟨(chunks.get ⟨i, hi⟩).chunk_index,
            "Chunk " ++ toString (chunks.get ⟨i, hi⟩).chunk_index ++
              " transcription failed: " ++ msg⟩ := by
  intro chunks
  induction chunks with
  | nil =>
    intro i hi
    simp at hi
  | cons c rest ih =>
    intro i hi hok msg hfail
    cases i with
    | zero =>
      simp at hfail
      simp [driveChunks, hfail]
    | succ i =>
      have hc : (transcribe c).isOk := by
        have := hok 0 (Nat.succ_pos i)
        simpa using this
      obtain ⟨segs, hsegs⟩ : ∃ segs, transcribe c = Except.ok segs := by
        cases hx : transcribe c with
        | ok s => exact ⟨s, rfl⟩
        | error e => rw [hx] at hc; simp [Except.isOk, Except.toBool] at hc
      have hi' : i < rest.length := Nat.lt_of_succ_lt_succ hi
      have hok' : ∀ j (hj : j < i), (transcribe (rest.get ⟨j, lt_trans hj hi'⟩)).isOk := by
        intro j hj
        have := hok (j + 1) (Nat.succ_lt_succ hj)
        simpa using this
      have hfail' : transcribe (rest.get ⟨i, hi'⟩) = Except.error msg := by
        simpa using hfail
      obtain ⟨h1, h2⟩ := ih i hi' hok' msg hfail'
      constructor
      · simp only [driveChunks, hsegs]
        cases hd : driveChunks transcribe rest with
        | mk submitted res =>
          cases res with
          | ok more =>
            rw [hd] at h1
            simp at h1
            simp [h1]
          | error e =>
            rw [hd] at h1
            simp at h1
            simp [h1]
      · simp only [driveChunks, hsegs]
        cases hd : driveChunks transcribe rest with
        | mk submitted res =>
          cases res with
          | ok more =>
            rw [hd] at h2
            simp at h2
          | error e =>
            rw [hd] at h2
            simp at h2
            simp [h2]

theorem chunk_audio_paths (total dur : ℚ) (fuel : ℕ) (c : AudioChunk)
    (hc : c ∈ chunk_audio total dur fuel) : ∃ m, c.file_path = chunkFileName m :=
  chunkGo_paths total dur fuel 0 0 c hc

/-! Equations of `transcribe_chunk`. -/

theorem transcribe_chunk_cons_empty (cst : ℚ) (w : Segment) (rest : List Segment)
    (h : strip w.text = "") :
    transcribe_chunk cst (w :: rest) = transcribe_chunk cst rest := by
  simp [transcribe_chunk, List.filterMap_cons, h]

theorem transcribe_chunk_cons (cst : ℚ) (w : Segment) (rest : List Segment)
    (h : ¬ strip w.text = "") :
    transcribe_chunk cst (w :: rest) =
      ⟨round2 (cst + w.start), round2 (cst + w.end_), strip w.text⟩ ::
        transcribe_chunk cst rest := by
  simp [transcribe_chunk, List.filterMap_cons, h]

end SonicLayer

namespace SonicLayer

/-! # Claim theorems -/

/-- C1, counterexample: on the fragment list `[(0,10,"a"),(10,20,"b")]` with
target duration 15, `merge_segments` returns the single segment
`(0,20,"a b")`, not the two segments the claim asserts. -/
theorem C1_counterexample :
    merge_segments [⟨0, 10, "a"⟩, ⟨10, 20, "b"⟩] 15 = [⟨0, 20, "a b"⟩] ∧
      (merge_segments [⟨0, 10, "a"⟩, ⟨10, 20, "b"⟩] 15).length = 1 := by
  have h : merge_segments [⟨0, 10, "a"⟩, ⟨10, 20, "b"⟩] 15 = [⟨0, 20, "a b"⟩] := by
    norm_num [merge_segments, mergeGo]
    rfl
  exact ⟨h, by rw [h]; rfl⟩

/-- C1 (amended): `merge_segments` appends the next fragment to the current
segment exactly while the current segment's own span `current.end - current.start`
is still below the target duration T (the test does not look at the next
fragment's end); a fragment arriving once the span has reached T seeds a new
segment.  Consequently `[(0,10,"a"),(10,20,"b")]` with T = 15 merges into the
single segment `(0,20,"a b")`. -/
theorem C1_merge_rule (T : ℚ) (current s : Segment) (rest : List Segment) :
    (T ≤ current.end_ - current.start →
      mergeGo T current (s :: rest) = current :: mergeGo T s rest) ∧
    (current.end_ - current.start < T →
      mergeGo T current (s :: rest) =
        mergeGo T ⟨current.start, s.end_, current.text ++ " " ++ s.text⟩ rest) ∧
    merge_segments [⟨0, 10, "a"⟩, ⟨10, 20, "b"⟩] 15 = [⟨0, 20, "a b"⟩] := by
  refine ⟨?_, ?_, ?_⟩
  · intro h
    simp [mergeGo, h]
  · intro h
    simp [mergeGo, not_le.2 h]
  · norm_num [merge_segments, mergeGo]
    rfl

/-- C1 witness: instantiating the merge rule at the claim's example input. -/
theorem C1_witness :
    mergeGo 15 ⟨0, 10, "a"⟩ [⟨10, 20, "b"⟩] = mergeGo 15 ⟨0, 20, "a b"⟩ [] ∧
      merge_segments [⟨0, 10, "a"⟩, ⟨10, 20, "b"⟩] 15 = [⟨0, 20, "a b"⟩] := by
  have h := C1_merge_rule 15 ⟨0, 10, "a"⟩ ⟨10, 20, "b"⟩ []
  exact ⟨h.2.1 (by norm_num), h.2.2⟩

/-- C2 (confirmed): the planner returns the whole probed duration as one
uncompressed chunk (`original.wav`, start 0) whenever the input size is
within `MAX_FILE_SIZE_BYTES`; for larger inputs it returns a whole-file
single chunk (`compressed.flac`) only when the observed compressed size is
within the limit, and otherwise the returned chunks all come from the
splitter (so any whole-file single-chunk result implies the compressed size
was verified to fit). -/
theorem C2_planner_decision (file_size : ℕ) (duration : ℚ) (compressed_size fuel : ℕ) :
    (file_size ≤ MAX_FILE_SIZE_BYTES →
      process_large_audio file_size duration compressed_size fuel =
        Except.ok [⟨"original.wav", 0, duration, 0⟩]) ∧
    (MAX_FILE_SIZE_BYTES < file_size → compressed_size ≤ MAX_FILE_SIZE_BYTES →
      process_large_audio file_size duration compressed_size fuel =
        Except.ok [⟨"compressed.flac", 0, duration, 0⟩]) ∧
    (∀ l, MAX_FILE_SIZE_BYTES < file_size →
      process_large_audio file_size duration compressed_size fuel = Except.ok l →
      (∃ c, l = [c] ∧ (c.file_path = "original.wav" ∨ c.file_path = "compressed.flac")) →
      compressed_size ≤ MAX_FILE_SIZE_BYTES) := by
  refine ⟨?_, ?_, ?_⟩
  · intro h
    simp [process_large_audio, h]
  · intro h1 h2
    simp [process_large_audio, not_le.2 h1, h2]
  · intro l h1 hres hsingle
    obtain ⟨c, hc, hpath⟩ := hsingle
    by_contra hcs
    push_neg at hcs
    simp only [process_large_audio, if_neg (not_le.2 h1), if_neg (not_le.2 hcs)] at hres
    by_cases hd : duration = 0
    · rw [if_pos hd] at hres
      exact absurd hres (by simp)
    · rw [if_neg hd] at hres
      simp only [Except.ok.injEq] at hres
      have hcmem : c ∈ l := by
        rw [hc]
        simp
      rw [← hres] at hcmem
      obtain ⟨m, hm⟩ := chunk_audio_paths _ _ _ c hcmem
      rcases hpath with hp | hp
      · exact (chunkFileName_ne m).1 (hm ▸ hp)
      · exact (chunkFileName_ne m).2 (hm ▸ hp)

/-- C2 witness: a 1000-byte input is returned whole and uncompressed; a
30 MiB input whose compression brings it to 1000 bytes is returned whole as
the compressed file. -/
theorem C2_witness :
    process_large_audio 1000 30 2000 5 = Except.ok [⟨"original.wav", 0, 30, 0⟩] ∧
      process_large_audio 31457280 30 1000 5 =
        Except.ok [⟨"compressed.flac", 0, 30, 0⟩] := by
  have h1 := C2_planner_decision 1000 30 2000 5
  have h2 := C2_planner_decision 31457280 30 1000 5
  exact ⟨h1.1 (by norm_num [MAX_FILE_SIZE_BYTES]),
    h2.2.1 (by norm_num [MAX_FILE_SIZE_BYTES]) (by norm_num [MAX_FILE_SIZE_BYTES])⟩

/-- C3 (confirmed): if every chunk before position `i` transcribes
successfully and the chunk at position `i` fails, then the driver submits
exactly the first `i + 1` chunks (no later chunk is ever submitted), the
propagated error carries the failing chunk's `chunk_index`, and the result
is an error — no partial segment list is returned. -/
theorem C3_fail_fast (transcribe : AudioChunk → Except String (List Segment))
    (chunks : List AudioChunk) (i : ℕ) (hi : i < chunks.length)
    (hok : ∀ j (hj : j < i), (transcribe (chunks.get ⟨j, lt_trans hj hi⟩)).isOk)
    (msg : String) (hfail : transcribe (chunks.get ⟨i, hi⟩) = Except.error msg) :
    (transcribe_chunked_audio transcribe chunks).1 = chunks.take (i + 1) ∧
      (transcribe_chunked_audio transcribe chunks).2 =
        Except.error ⟨(chunks.get ⟨i, hi⟩).chunk_index,
          "Chunk " ++ toString (chunks.get ⟨i, hi⟩).chunk_index ++
            " transcription failed: " ++ msg⟩ := by
  obtain ⟨h1, h2⟩ := driveChunks_fail transcribe chunks i hi hok msg hfail
  unfold transcribe_chunked_audio
  cases hd : driveChunks transcribe chunks with
  | mk submitted res =>
    rw [hd] at h1 h2
    cases res with
    | ok segs =>
      simp at h2
    | error e =>
      simp at h1 h2
      simp [h1, h2]

/-- C3 witness: with three chunks where the external call succeeds on index
0 and fails on index 1, only the first two chunks are submitted and the
error names chunk index 1. -/
theorem C3_witness :
    (transcribe_chunked_audio
        (fun c => if c.chunk_index = 0 then Except.ok [] else Except.error "boom")
        [⟨"c0", 0, 1, 0⟩, ⟨"c1", 1, 1, 1⟩, ⟨"c2", 2, 1, 2⟩]).1 =
      [⟨"c0", 0, 1, 0⟩, ⟨"c1", 1, 1, 1⟩] ∧
    (transcribe_chunked_audio
        (fun c => if c.chunk_index = 0 then Except.ok [] else Except.error "boom")
        [⟨"c0", 0, 1, 0⟩, ⟨"c1", 1, 1, 1⟩, ⟨"c2", 2, 1, 2⟩]).2 =
      Except.error ⟨1, "Chunk 1 transcription failed: boom"⟩ := by
  have h := C3_fail_fast
    (fun c => if c.chunk_index = 0 then Except.ok [] else Except.error "boom")
    [⟨"c0", 0, 1, 0⟩, ⟨"c1", 1, 1, 1⟩, ⟨"c2", 2, 1, 2⟩] 1 (by norm_num)
    (by
      intro j hj
      interval_cases j
      · exact rfl)
    "boom" rfl
  exact ⟨h.1, h.2⟩

/-- C4 (code bug): the rate limiter does not bound calls to
`RATE_LIMIT_REQUESTS` per trailing `RATE_LIMIT_PERIOD` window.  For the
valid sequential arrival trace 0, 58, 59, 59, 61 (arrivals nondecreasing,
each arrival no earlier than the previous issue time) the issued call times
are 0, 58, 59, 61, 61 — and 4 > `RATE_LIMIT_REQUESTS` of them fall inside
the trailing 60-second window ending at time 61.  The cause is
`last_request_times.clear()` after a blocking sleep, which forgets the
calls at 58 and 59 even though they are still inside the window. -/
theorem C4_rate_limit_violation :
    rl_run [0, 58, 59, 59, 61] = [0, 58, 59, 61, 61] ∧
    List.Chain' (fun a b => a ≤ b) ([0, 58, 59, 59, 61] : List ℚ) ∧
    (∀ p ∈ List.zip ([58, 59, 59, 61] : List ℚ) ([0, 58, 59, 61] : List ℚ), p.2 ≤ p.1) ∧
    List.countP (fun t => decide ((61 : ℚ) - t < RATE_LIMIT_PERIOD ∧ t ≤ 61))
      (rl_run [0, 58, 59, 59, 61]) = 4 ∧
    RATE_LIMIT_REQUESTS < 4 := by
  have hrun : rl_run [0, 58, 59, 59, 61] = [0, 58, 59, 61, 61] := by
    norm_num [rl_run, wait_for_rate_limit, RATE_LIMIT_PERIOD, RATE_LIMIT_REQUESTS, List.foldl]
  refine ⟨hrun, ?_, ?_, ?_, by norm_num [RATE_LIMIT_REQUESTS]⟩
  · norm_num
  · intro p hp
    fin_cases hp <;> norm_num
  · rw [hrun]
    norm_num [List.countP, List.countP.go, RATE_LIMIT_PERIOD]

/-- C5, counterexample: a 30 MB input with a 30 MB compressed size and a
probed duration of 0 makes the planner reach the bytes-per-second division
with a zero divisor.  The run fails with (the embedding of) Python's
`ZeroDivisionError`, not with the `InvalidAudioError` the claim names —
no such guard exists in the code. -/
theorem C5_counterexample :
    process_large_audio 31457280 0 31457280 5 =
      Except.error PlannerError.zeroDivisionError ∧
    (Except.error PlannerError.zeroDivisionError :
        Except PlannerError (List AudioChunk)) ≠
      Except.error PlannerError.invalidAudioError := by
  constructor
  · norm_num [process_large_audio, MAX_FILE_SIZE_BYTES]
  · simp

/-- C5 (amended): whenever both the raw and the compressed size exceed
`MAX_FILE_SIZE_BYTES` and the probed duration is 0, `process_large_audio`
performs the bytes-per-second division with a zero divisor and the run
fails with the runtime's `ZeroDivisionError`; it never produces an
`InvalidAudioError` (no such guard exists in the code). -/
theorem C5_zero_duration (file_size compressed_size fuel : ℕ)
    (h1 : MAX_FILE_SIZE_BYTES < file_size) (h2 : MAX_FILE_SIZE_BYTES < compressed_size) :
    process_large_audio file_size 0 compressed_size fuel =
      Except.error PlannerError.zeroDivisionError ∧
    process_large_audio file_size 0 compressed_size fuel ≠
      Except.error PlannerError.invalidAudioError := by
  have h : process_large_audio file_size 0 compressed_size fuel =
      Except.error PlannerError.zeroDivisionError := by
    simp [process_large_audio, not_le.2 h1, not_le.2 h2]
  refine ⟨h, by rw [h]; simp⟩

/-- C5 witness: instantiating the zero-duration failure at 27 MB sizes. -/
theorem C5_witness :
    process_large_audio 27000000 0 27000000 3 =
      Except.error PlannerError.zeroDivisionError ∧
    process_large_audio 27000000 0 27000000 3 ≠
      Except.error PlannerError.invalidAudioError :=
  C5_zero_duration 27000000 27000000 3 (by norm_num [MAX_FILE_SIZE_BYTES])
    (by norm_num [MAX_FILE_SIZE_BYTES])

/-- C6 (confirmed): for positive total and chunk durations (with enough
fuel for the source's `while` loop), `chunk_audio` emits chunks indexed
0,1,…,n−1 in order, starting at time 0, with each chunk starting where the
previous one ended, durations summing exactly to the total, every non-final
chunk of duration `chunk_duration`, and the final chunk's duration equal to
the total minus the sum of the previous durations. -/
theorem C6_chunk_partition (total chunkDur : ℚ) (fuel : ℕ)
    (htotal : 0 < total) (hchunk : 0 < chunkDur) (hfuel : total ≤ fuel * chunkDur) :
    chunk_audio total chunkDur fuel ≠ [] ∧
    (chunk_audio total chunkDur fuel).map AudioChunk.chunk_index =
      List.range (chunk_audio total chunkDur fuel).length ∧
    (∀ y, (chunk_audio total chunkDur fuel).head? = some y → y.start_time = 0) ∧
    List.Chain' (fun a b => b.start_time = a.start_time + a.duration)
      (chunk_audio total chunkDur fuel) ∧
    ((chunk_audio total chunkDur fuel).map AudioChunk.duration).sum = total ∧
    (∀ c ∈ (chunk_audio total chunkDur fuel).dropLast, c.duration = chunkDur) ∧
    (∀ c, (chunk_audio total chunkDur fuel).getLast? = some c →
      c.duration =
        total - (((chunk_audio total chunkDur fuel).dropLast).map AudioChunk.duration).sum) := by
  unfold chunk_audio
  obtain ⟨hne, hidx, hhd, hchain, hsum, hdrop⟩ :=
    chunkGo_spec total chunkDur fuel 0 0 htotal (by simpa using hfuel)
  refine ⟨hne, by rw [List.range_eq_range']; exact hidx, hhd, hchain,
    by simpa using hsum, hdrop, ?_⟩
  intro c hc
  have hdecomp := List.dropLast_append_getLast hne
  have hcl : (chunkGo total chunkDur fuel 0 0).getLast hne = c := by
    rw [List.getLast?_eq_getLast _ hne] at hc
    exact Option.some.inj hc
  have hsplit : ((chunkGo total chunkDur fuel 0 0).map AudioChunk.duration).sum =
      (((chunkGo total chunkDur fuel 0 0).dropLast).map AudioChunk.duration).sum +
        c.duration := by
    conv_lhs => rw [← hdecomp]
    rw [List.map_append, List.sum_append]
    simp [hcl]
  rw [hsum] at hsplit
  linarith

/-- C6 witness: a 10-second recording with 4-second chunks gives chunks
(0,4), (4,4), (8,2). -/
theorem C6_witness :
    chunk_audio 10 4 3 ≠ [] ∧
    (chunk_audio 10 4 3).map AudioChunk.chunk_index =
      List.range (chunk_audio 10 4 3).length ∧
    (∀ y, (chunk_audio 10 4 3).head? = some y → y.start_time = 0) ∧
    List.Chain' (fun a b => b.start_time = a.start_time + a.duration) (chunk_audio 10 4 3) ∧
    ((chunk_audio 10 4 3).map AudioChunk.duration).sum = 10 ∧
    (∀ c ∈ (chunk_audio 10 4 3).dropLast, c.duration = 4) ∧
    (∀ c, (chunk_audio 10 4 3).getLast? = some c →
      c.duration = 10 - (((chunk_audio 10 4 3).dropLast).map AudioChunk.duration).sum) :=
  C6_chunk_partition 10 4 3 (by norm_num) (by norm_num) (by norm_num)

/-- C7 (confirmed): when the planner reaches the splitting step, the chunk
duration handed to the splitter is
`(TARGET_CHUNK_SIZE_BYTES / observedBytesPerSecond) × 0.9` with
`observedBytesPerSecond` the actual compressed size divided by the probed
duration, clamped into [60, 300] seconds. -/
theorem C7_chunk_duration (file_size : ℕ) (duration : ℚ) (compressed_size fuel : ℕ)
    (h1 : MAX_FILE_SIZE_BYTES < file_size) (h2 : MAX_FILE_SIZE_BYTES < compressed_size)
    (h3 : duration ≠ 0) :
    ∃ d, d = max 60 (min ((TARGET_CHUNK_SIZE_BYTES : ℚ) /
          ((compressed_size : ℚ) / duration) * (9 / 10)) 300) ∧
      process_large_audio file_size duration compressed_size fuel =
        Except.ok (chunk_audio duration d fuel) ∧
      60 ≤ d ∧ d ≤ 300 := by
  refine ⟨_, rfl, ?_, le_max_left _ _, max_le (by norm_num) (min_le_right _ _)⟩
  simp [process_large_audio, not_le.2 h1, not_le.2 h2, h3]

/-- C7 witness: the spec's 30 MB / 720 s scenario: the raw target is 432 s,
clamped at the 300 s ceiling. -/
theorem C7_witness :
    process_large_audio 31457280 720 31457280 5 =
      Except.ok (chunk_audio 720 300 5) ∧ (60 : ℚ) ≤ 300 ∧ (300 : ℚ) ≤ 300 := by
  obtain ⟨d, hd, hres, h60, h300⟩ := C7_chunk_duration 31457280 720 31457280 5
    (by norm_num [MAX_FILE_SIZE_BYTES]) (by norm_num [MAX_FILE_SIZE_BYTES]) (by norm_num)
  have hdv : d = 300 := by
    rw [hd]
    norm_num [TARGET_CHUNK_SIZE_BYTES, min_def, max_def]
  rw [hdv] at hres h60 h300
  exact ⟨hres, h60, h300⟩

/-- C8, counterexample: `transcribe_chunk` does not leave text unchanged —
a recognizer fragment with text `" hi "` from a chunk starting at 240 is
emitted with the stripped text `"hi"`; and offsets are rounded to two
decimals, so a fragment starting at 0.001 is not emitted at exactly
`240.001`. -/
theorem C8_counterexample :
    transcribe_chunk 240 [⟨5, 8, " hi "⟩] = [⟨245, 248, "hi"⟩] ∧
    ("hi" : String) ≠ " hi " ∧
    transcribe_chunk 240 [⟨1 / 1000, 8, "hi"⟩] ≠ [⟨240 + 1 / 1000, 248, "hi"⟩] := by
  refine ⟨?_, by decide, ?_⟩
  · have hs : strip " hi " = "hi" := rfl
    have h1 : round2 (240 + 5 : ℚ) = 245 := by
      rw [round2_eq_self ⟨24500, by norm_num⟩]
      norm_num
    have h2 : round2 (240 + 8 : ℚ) = 248 := by
      rw [round2_eq_self ⟨24800, by norm_num⟩]
      norm_num
    simp [transcribe_chunk, hs, h1, h2]
  · have hr : round2 (240 + 1 / 1000 : ℚ) = 240 := by
      unfold round2 roundHalfEven
      norm_num
      rw [round_eq]
      norm_num
    have hs : strip "hi" = "hi" := rfl
    rw [transcribe_chunk_cons 240 ⟨1 / 1000, 8, "hi"⟩ [] (by rw [hs]; simp)]
    simp only [hs, hr]
    intro h
    have hinj := congrArg (fun l => (List.head? l).map Segment.start) h
    simp at hinj

/-- C8 (amended): `transcribe_chunk` keeps every recognizer fragment with
non-empty stripped text with its text stripped, and — whenever the offset
sums land on whole hundredths of a second (recognizer timestamps are
centisecond-precision) — with start and end offset exactly by the chunk's
start time; fragments whose text strips to empty are dropped. -/
theorem C8_offset (cst : ℚ) (whisper : List Segment)
    (hc : ∀ w ∈ whisper, isCenti (cst + w.start) ∧ isCenti (cst + w.end_)) :
    transcribe_chunk cst whisper =
      (whisper.filter (fun w => decide (strip w.text ≠ ""))).map
        (fun w => ⟨cst + w.start, cst + w.end_, strip w.text⟩) := by
  induction whisper with
  | nil => rfl
  | cons w rest ih =>
    obtain ⟨hws, hwe⟩ := hc w (by simp)
    have htail : ∀ x ∈ rest, isCenti (cst + x.start) ∧ isCenti (cst + x.end_) :=
      fun x hx => hc x (by simp [hx])
    by_cases hwt : strip w.text = ""
    · rw [transcribe_chunk_cons_empty _ _ _ hwt, ih htail, List.filter_cons]
      simp [hwt]
    · rw [transcribe_chunk_cons _ _ _ hwt, ih htail, List.filter_cons]
      simp [hwt, round2_eq_self hws, round2_eq_self hwe]

/-- C8 witness: the spec's example fragment (5,8) in the chunk at 240
becomes (245,248); a whitespace-only fragment is dropped. -/
theorem C8_witness :
    transcribe_chunk 240 [⟨5, 8, " hi "⟩, ⟨9, 10, "  "⟩] = [⟨245, 248, "hi"⟩] := by
  have h := C8_offset 240 [⟨5, 8, " hi "⟩, ⟨9, 10, "  "⟩] (by
    intro w hw
    fin_cases hw
    · exact ⟨⟨24500, by norm_num⟩, ⟨24800, by norm_num⟩⟩
    · exact ⟨⟨24900, by norm_num⟩, ⟨25000, by norm_num⟩⟩)
  rw [h]
  have h1 : strip " hi " = "hi" := rfl
  have h2 : strip "  " = "" := rfl
  simp [List.filter_cons, h1, h2]
  norm_num

/-- C9, counterexample: the code performs no invariant check before
returning, and the chunked path can return a segment list violating the
claimed invariant.  With one chunk whose recognizer output is the
out-of-order fragment pair (0,20,"a"), (0,5,"b") — an order the data model
explicitly does not rule out — the pipeline returns exactly that pair,
whose second segment starts before the first one ends and not after its
start. -/
theorem C9_counterexample :
    (transcribe_chunked_audio
        (fun c => Except.ok (transcribe_chunk c.start_time [⟨0, 20, "a"⟩, ⟨0, 5, "b"⟩]))
        [⟨"chunk_0000.flac", 0, 20, 0⟩]).2 =
      Except.ok [⟨0, 20, "a"⟩, ⟨0, 5, "b"⟩] ∧
    ¬ segInvariant [⟨0, 20, "a"⟩, ⟨0, 5, "b"⟩] := by
  constructor
  · have r0 : round2 (0 : ℚ) = 0 := round2_eq_self ⟨0, by norm_num⟩
    have r20 : round2 (20 : ℚ) = 20 := round2_eq_self ⟨2000, by norm_num⟩
    have r5 : round2 (5 : ℚ) = 5 := round2_eq_self ⟨500, by norm_num⟩
    have ht : transcribe_chunk 0 [⟨0, 20, "a"⟩, ⟨0, 5, "b"⟩] =
        [⟨0, 20, "a"⟩, ⟨0, 5, "b"⟩] := by
      rw [transcribe_chunk_cons 0 ⟨0, 20, "a"⟩ _ (by decide),
        transcribe_chunk_cons 0 ⟨0, 5, "b"⟩ [] (by decide)]
      norm_num [r0, r20, r5]
      decide
    have hmerge : merge_segments [⟨0, 20, "a"⟩, ⟨0, 5, "b"⟩] 15 =
        [⟨0, 20, "a"⟩, ⟨0, 5, "b"⟩] := by
      norm_num [merge_segments, mergeGo]
      decide
    simp [transcribe_chunked_audio, driveChunks, ht, hmerge]
  · intro hinv
    have := (List.chain'_cons.1 hinv.2).1
    norm_num at this

/-- C9 (amended): the returned segment lists satisfy the invariant (end
after start, trimmed text, strictly ascending non-overlapping segments)
provided the recognizer fragments feeding each path are themselves ordered
(each fragment ends no later than the next starts), positive-length, with
non-empty stripped text, and (for exactness under two-decimal rounding)
centisecond-aligned timestamps; the code itself performs no such check, and
the property fails for out-of-order recognizer output. -/
theorem C9_invariant (T : ℚ) (frags whisper : List Segment)
    (hf : ∀ s ∈ frags, s.start < s.end_ ∧ strip s.text = s.text ∧ s.text ≠ "")
    (hfchain : List.Chain' (fun a b => a.end_ ≤ b.start) frags)
    (hw : ∀ w ∈ whisper, w.start < w.end_ ∧ isCenti w.start ∧ isCenti w.end_ ∧
      strip w.text ≠ "")
    (hwchain : List.Chain' (fun a b => a.end_ ≤ b.start) whisper) :
    segInvariant (merge_segments frags T) ∧
      segInvariant (transcribe_audio_with_timestamps T whisper) := by
  constructor
  · cases frags with
    | nil =>
      constructor
      · intro s hs
        simp [merge_segments] at hs
      · simp [merge_segments]
    | cons f rest =>
      obtain ⟨hf1, hf2, hf3⟩ := hf f (by simp)
      exact mergeGo_invariant T rest ⟨f.start, f.end_, f.text⟩ hf1 hf2 hf3
        (fun s hs => hf s (by simp [hs])) hfchain
  · cases whisper with
    | nil =>
      constructor
      · intro s hs
        simp [transcribe_audio_with_timestamps, tawGo] at hs
      · simp [transcribe_audio_with_timestamps, tawGo]
    | cons w rest =>
      obtain ⟨hw1, hw2, hw3, hw4⟩ := hw w (by simp)
      have hne : (w :: rest : List Segment) ≠ [] := by simp
      have hle := List.getLast?_eq_getLast (w :: rest) hne
      have hglmem : (w :: rest).getLast hne ∈ w :: rest := List.getLast_mem hne
      obtain ⟨hg1, hg2, hg3, hg4⟩ := hw _ hglmem
      show segInvariant (tawGo T ((w :: rest).getLast?.map Segment.end_) (w :: rest) 0 "")
      rw [hle]
      simp only [Option.map_some']
      rw [tawGo_cons_seed]
      refine (tawGo_invariant T rest w.start (strip w.text) ((w :: rest).getLast hne).end_
        hw4 hw2 (fun x hx => hw x (by simp [hx])) (List.chain'_cons'.1 hwchain).2
        ?_ ?_ ?_ hg3).1
      · intro r hr
        exact lt_of_lt_of_le hw1 ((List.chain'_cons'.1 hwchain).1 r hr)
      · intro h
        subst h
        simpa using hw1
      · intro r hr
        have hwr : (w :: rest).getLast? = some r := by
          cases rest with
          | nil => simp at hr
          | cons a l =>
            rw [List.getLast?_cons_cons]
            exact hr
        rw [hle] at hwr
        rw [Option.some.inj hwr]

/-- C9 witness: on the well-ordered fragments (0,10,"a"), (10,20,"b") both
paths return lists satisfying the invariant. -/
theorem C9_witness :
    segInvariant (merge_segments [⟨0, 10, "a"⟩, ⟨10, 20, "b"⟩] 15) ∧
      segInvariant (transcribe_audio_with_timestamps 15 [⟨0, 10, "a"⟩, ⟨10, 20, "b"⟩]) := by
  apply C9_invariant 15 [⟨0, 10, "a"⟩, ⟨10, 20, "b"⟩] [⟨0, 10, "a"⟩, ⟨10, 20, "b"⟩]
  · intro s hs
    fin_cases hs
    · exact ⟨by norm_num, rfl, by decide⟩
    · exact ⟨by norm_num, rfl, by decide⟩
  · exact List.chain'_cons.2 ⟨by norm_num, List.chain'_singleton _⟩
  · intro w hw
    fin_cases hw
    · exact ⟨by norm_num, ⟨0, by norm_num⟩, ⟨1000, by norm_num⟩, by decide⟩
    · exact ⟨by norm_num, ⟨1000, by norm_num⟩, ⟨2000, by norm_num⟩, by decide⟩
  · exact List.chain'_cons.2 ⟨by norm_num, List.chain'_singleton _⟩

/-- C10 (confirmed): for a non-empty fragment list with non-empty texts,
`merge_segments` loses no text — the space-joined concatenation of the
output texts equals that of the input texts — and preserves the first
fragment's start and the last fragment's end; the empty input yields the
empty output. -/
theorem C10_text_preservation (T : ℚ) (segs : List Segment)
    (hne : segs ≠ []) (htexts : ∀ s ∈ segs, s.text ≠ "") :
    sjoin ((merge_segments segs T).map Segment.text) = sjoin (segs.map Segment.text) ∧
    (merge_segments segs T).head?.map Segment.start = segs.head?.map Segment.start ∧
    (merge_segments segs T).getLast?.map Segment.end_ = segs.getLast?.map Segment.end_ ∧
    merge_segments ([] : List Segment) T = [] := by
  cases segs with
  | nil => exact absurd rfl hne
  | cons s0 rest =>
    have h0 : s0.text ≠ "" := htexts s0 (by simp)
    have htail : ∀ x ∈ rest, x.text ≠ "" := fun x hx => htexts x (by simp [hx])
    refine ⟨?_, ?_, ?_, rfl⟩
    · have h := mergeGo_sjoin T rest ⟨s0.start, s0.end_, s0.text⟩ h0 htail
      simpa [merge_segments] using h
    · obtain ⟨e, t, hhd⟩ := mergeGo_head? T rest ⟨s0.start, s0.end_, s0.text⟩ h0
      show (mergeGo T ⟨s0.start, s0.end_, s0.text⟩ rest).head?.map Segment.start = _
      rw [hhd]
      simp
    · exact mergeGo_getLast? T rest ⟨s0.start, s0.end_, s0.text⟩ h0 htail

/-- C10 witness: on (0,10,"a"), (10,20,"b") with target 15 the merged text
is the joined "a b", the first start 0 and the last end 20 are preserved. -/
theorem C10_witness :
    sjoin ((merge_segments [⟨0, 10, "a"⟩, ⟨10, 20, "b"⟩] 15).map Segment.text) =
      sjoin (([⟨0, 10, "a"⟩, ⟨10, 20, "b"⟩] : List Segment).map Segment.text) ∧
    (merge_segments [⟨0, 10, "a"⟩, ⟨10, 20, "b"⟩] 15).head?.map Segment.start =
      (([⟨0, 10, "a"⟩, ⟨10, 20, "b"⟩] : List Segment)).head?.map Segment.start ∧
    (merge_segments [⟨0, 10, "a"⟩, ⟨10, 20, "b"⟩] 15).getLast?.map Segment.end_ =
      (([⟨0, 10, "a"⟩, ⟨10, 20, "b"⟩] : List Segment)).getLast?.map Segment.end_ ∧
    merge_segments ([] : List Segment) 15 = [] :=
  C10_text_preservation 15 [⟨0, 10, "a"⟩, ⟨10, 20, "b"⟩] (by simp)
    (by
      intro s hs
      fin_cases hs
      · decide
      · decide)

end SonicLayer
